import Mathlib

/-!
Shallow embedding of the payments-ledger core of `src/services/payment_engine.rs`
together with its domain types (`src/domain/user_account.rs`,
`src/domain/transaction.rs`).

Modelling conventions:
* `rust_decimal::Decimal` amounts are modelled as scale-4 fixed-point values:
  an `Int` counting units of 10⁻⁴ (so the displayed `100.0000` is `1000000`).
  `Decimal`'s 96-bit mantissa bound becomes the symmetric range
  `[-decMax, decMax]`; `checked_add` / `checked_sub` signal overflow outside it.
* The `DashMap<u16, UserAccount>` account store is modelled as a list of
  accounts looked up by their `client` field; the `IndexMap<u32, TxRecord>`
  transaction log as an insertion-ordered association list.  `get_mut` style
  in-place mutation becomes first-match functional update.
* The engine's `async` handlers run under one log lock, so sequential
  processing is the observable semantics; each handler becomes a pure function
  from engine state to engine state.  The handler's silent return is enriched
  with an `Outcome` tag that records which branch of the Rust code returned.
-/

set_option maxRecDepth 100000

namespace PaymentEngine

/-- Largest representable magnitude of the fixed-point decimal: the 96-bit
mantissa bound of `rust_decimal::Decimal`, in units of 10⁻⁴. -/
def decMax : Int := 2 ^ 96 - 1

/-- `Decimal::checked_add` as used by `checked_add_with_log`: the exact sum
when representable, `none` (overflow signal) otherwise. -/
def checkedAdd (current amount : Int) : Option Int :=
  if current + amount < -decMax ∨ decMax < current + amount then none
  else some (current + amount)

/-- `Decimal::checked_sub` as used by `checked_sub_with_log`. -/
def checkedSub (current amount : Int) : Option Int :=
  if current - amount < -decMax ∨ decMax < current - amount then none
  else some (current - amount)

/-- `UserAccount` of `src/domain/user_account.rs`. -/
structure UserAccount where
  client : Nat
  available : Int
  held : Int
  total : Int
  locked : Bool
deriving DecidableEq, Repr

/-- `UserAccount::new`: a zero-valued unlocked account. -/
def UserAccount.new (clientId : Nat) : UserAccount :=
  { client := clientId, available := 0, held := 0, total := 0, locked := false }

/-- `TrxStatus` of `src/domain/transaction.rs`. -/
inductive TrxStatus
  | normal
  | underDispute
  | chargedBack
deriving DecidableEq, Repr

/-- `TxRecord` of `src/domain/transaction.rs`. -/
structure TxRecord where
  client : Nat
  amount : Int
  status : TrxStatus
deriving DecidableEq, Repr

/-- The `Trx` event enum of `src/domain/transaction.rs`. -/
inductive Trx
  | deposit (client : Nat) (tx : Nat) (amount : Int)
  | withdrawal (client : Nat) (tx : Nat) (amount : Int)
  | dispute (client : Nat) (tx : Nat)
  | resolve (client : Nat) (tx : Nat)
  | chargeback (client : Nat) (tx : Nat)
deriving DecidableEq, Repr

/-- The client id an event targets. -/
def Trx.clientOf : Trx → Nat
  | .deposit c _ _ => c
  | .withdrawal c _ _ => c
  | .dispute c _ => c
  | .resolve c _ => c
  | .chargeback c _ => c

/-- Lookup in the account store (`DashMap::get` keyed by client id). -/
def findAccount : List UserAccount → Nat → Option UserAccount
  | [], _ => none
  | a :: rest, c => if a.client = c then some a else findAccount rest c

/-- In-place mutation of one client's account through its exclusive handle
(`RefMut` from `DashMap`): first-match functional update. -/
def updateAccount : List UserAccount → Nat → (UserAccount → UserAccount) → List UserAccount
  | [], _, _ => []
  | a :: rest, c, f => if a.client = c then f a :: rest else a :: updateAccount rest c f

/-- `get_or_create_account`: `entry(client).or_insert_with(UserAccount::new)`.
Returns the store (with the account inserted when absent) and the handle. -/
def getOrCreateAccount (accounts : List UserAccount) (clientId : Nat) :
    List UserAccount × UserAccount :=
  match findAccount accounts clientId with
  | some a => (accounts, a)
  | none => (accounts ++ [UserAccount.new clientId], UserAccount.new clientId)

/-- Lookup in the insertion-ordered transaction log (`IndexMap::get`). -/
def findTx : List (Nat × TxRecord) → Nat → Option TxRecord
  | [], _ => none
  | p :: rest, t => if p.1 = t then some p.2 else findTx rest t

/-- `IndexMap::contains_key`. -/
def containsTx (txHistory : List (Nat × TxRecord)) (t : Nat) : Bool :=
  (findTx txHistory t).isSome

/-- Mutating the `status` field through `IndexMap::get_mut`: first-match
update of the record stored under `t`. -/
def setTxStatus : List (Nat × TxRecord) → Nat → TrxStatus → List (Nat × TxRecord)
  | [], _, _ => []
  | p :: rest, t, s =>
    if p.1 = t then (p.1, { p.2 with status := s }) :: rest
    else p :: setTxStatus rest t s

/-- `IndexMap::insert`: replaces in place when the key is present (keeping its
insertion index), appends at the end otherwise. -/
def insertTx (txHistory : List (Nat × TxRecord)) (t : Nat) (r : TxRecord) :
    List (Nat × TxRecord) :=
  if containsTx txHistory t then
    txHistory.map (fun p => if p.1 = t then (p.1, r) else p)
  else txHistory ++ [(t, r)]

/-- `insert_tx_with_eviction`: when a finite capacity is configured and the
log is at (or beyond) it, `shift_remove_index(0)` drops the oldest entry;
then the new `TxRecord` with status `Normal` is inserted. -/
def insertTxWithEviction (maxTxHistory : Option Nat)
    (txHistory : List (Nat × TxRecord)) (t clientId : Nat) (amount : Int) :
    List (Nat × TxRecord) :=
  let pruned :=
    match maxTxHistory with
    | some m => if txHistory.length ≥ m then txHistory.drop 1 else txHistory
    | none => txHistory
  insertTx pruned t { client := clientId, amount := amount, status := .normal }

/-- `PaymentsEngine`: account store, transaction log, configured capacity. -/
structure PaymentsEngine where
  userAccountMap : List UserAccount
  txHistory : List (Nat × TxRecord)
  maxTxHistory : Option Nat
deriving DecidableEq, Repr

/-- `PaymentsEngine::with_max_history` (and `new` / `default` when `none`). -/
def withMaxHistory (maxTxHistory : Option Nat) : PaymentsEngine :=
  { userAccountMap := [], txHistory := [], maxTxHistory := maxTxHistory }

/-- Which return path of a handler fired.  The Rust handlers return `()`;
this tag names the `return` site (log message) that was taken. -/
inductive Outcome
  | accepted
  | duplicateId
  | insufficientFunds
  | txNotFound
  | crossClient
  | alreadyChargedBack
  | alreadyUnderDispute
  | notUnderDispute
  | overflow
  | accountMissing
deriving DecidableEq, Repr

/-- The rejection causes named by the spec's error taxonomy: duplicate id,
insufficient funds, tx not found, cross-client, wrong dispute status,
arithmetic overflow.  `accepted` is not a rejection; `accountMissing` is the
silent fall-through when the account lookup of a dispute-family handler finds
nothing (no log message, unreachable from an initial state). -/
def Outcome.isRejection : Outcome → Bool
  | .duplicateId => true
  | .insufficientFunds => true
  | .txNotFound => true
  | .crossClient => true
  | .alreadyChargedBack => true
  | .alreadyUnderDispute => true
  | .notUnderDispute => true
  | .overflow => true
  | .accepted => false
  | .accountMissing => false

/-- `process_deposit`. -/
def processDeposit (st : PaymentsEngine) (clientId t : Nat) (amount : Int) :
    PaymentsEngine × Outcome :=
  if containsTx st.txHistory t then (st, .duplicateId)
  else
    let created := getOrCreateAccount st.userAccountMap clientId
    let account := created.2
    match checkedAdd account.available amount with
    | none => ({ st with userAccountMap := created.1 }, .overflow)
    | some newAvailable =>
      match checkedAdd account.total amount with
      | none => ({ st with userAccountMap := created.1 }, .overflow)
      | some newTotal =>
        ({ st with
            userAccountMap := updateAccount created.1 clientId
              (fun a => { a with available := newAvailable, total := newTotal }),
            txHistory := insertTxWithEviction st.maxTxHistory st.txHistory t clientId amount },
          .accepted)

/-- `process_withdrawal`.  Note `get_or_create_account` runs before the
insufficient-funds comparison, and that comparison uses `<` against
`available` only. -/
def processWithdrawal (st : PaymentsEngine) (clientId t : Nat) (amount : Int) :
    PaymentsEngine × Outcome :=
  if containsTx st.txHistory t then (st, .duplicateId)
  else
    let created := getOrCreateAccount st.userAccountMap clientId
    let account := created.2
    if account.available < amount then
      ({ st with userAccountMap := created.1 }, .insufficientFunds)
    else
      match checkedSub account.available amount with
      | none => ({ st with userAccountMap := created.1 }, .overflow)
      | some newAvailable =>
        match checkedSub account.total amount with
        | none => ({ st with userAccountMap := created.1 }, .overflow)
        | some newTotal =>
          ({ st with
              userAccountMap := updateAccount created.1 clientId
                (fun a => { a with available := newAvailable, total := newTotal }),
              txHistory := insertTxWithEviction st.maxTxHistory st.txHistory t clientId amount },
            .accepted)

/-- `process_dispute`: ownership and status checks, provisional
`UnderDispute` write, two checked arithmetic steps with status rollback on
overflow, commit of `available - amount` / `held + amount`. -/
def processDispute (st : PaymentsEngine) (clientId t : Nat) :
    PaymentsEngine × Outcome :=
  match findTx st.txHistory t with
  | none => (st, .txNotFound)
  | some txRecord =>
    if txRecord.client ≠ clientId then (st, .crossClient)
    else if txRecord.status = .chargedBack then (st, .alreadyChargedBack)
    else if txRecord.status = .underDispute then (st, .alreadyUnderDispute)
    else
      let amount := txRecord.amount
      let disputed := setTxStatus st.txHistory t .underDispute
      match findAccount st.userAccountMap clientId with
      | none => ({ st with txHistory := disputed }, .accountMissing)
      | some account =>
        match checkedSub account.available amount with
        | none => ({ st with txHistory := setTxStatus disputed t .normal }, .overflow)
        | some newAvailable =>
          match checkedAdd account.held amount with
          | none => ({ st with txHistory := setTxStatus disputed t .normal }, .overflow)
          | some newHeld =>
            ({ st with
                userAccountMap := updateAccount st.userAccountMap clientId
                  (fun a => { a with available := newAvailable, held := newHeld }),
                txHistory := disputed },
              .accepted)

/-- `process_resolve`: requires `UnderDispute`, provisional `Normal` write,
rollback to `UnderDispute` on overflow, commit of `held - amount` /
`available + amount`. -/
def processResolve (st : PaymentsEngine) (clientId t : Nat) :
    PaymentsEngine × Outcome :=
  match findTx st.txHistory t with
  | none => (st, .txNotFound)
  | some txRecord =>
    if txRecord.client ≠ clientId then (st, .crossClient)
    else if txRecord.status ≠ .underDispute then (st, .notUnderDispute)
    else
      let amount := txRecord.amount
      let resolved := setTxStatus st.txHistory t .normal
      match findAccount st.userAccountMap clientId with
      | none => ({ st with txHistory := resolved }, .accountMissing)
      | some account =>
        match checkedSub account.held amount with
        | none => ({ st with txHistory := setTxStatus resolved t .underDispute }, .overflow)
        | some newHeld =>
          match checkedAdd account.available amount with
          | none => ({ st with txHistory := setTxStatus resolved t .underDispute }, .overflow)
          | some newAvailable =>
            ({ st with
                userAccountMap := updateAccount st.userAccountMap clientId
                  (fun a => { a with held := newHeld, available := newAvailable }),
                txHistory := resolved },
              .accepted)

/-- `process_chargeback`: requires `UnderDispute`, provisional `ChargedBack`
write, rollback to `UnderDispute` on overflow, commit of `held - amount` /
`total - amount` and `locked := true`. -/
def processChargeback (st : PaymentsEngine) (clientId t : Nat) :
    PaymentsEngine × Outcome :=
  match findTx st.txHistory t with
  | none => (st, .txNotFound)
  | some txRecord =>
    if txRecord.client ≠ clientId then (st, .crossClient)
    else if txRecord.status ≠ .underDispute then (st, .notUnderDispute)
    else
      let amount := txRecord.amount
      let charged := setTxStatus st.txHistory t .chargedBack
      match findAccount st.userAccountMap clientId with
      | none => ({ st with txHistory := charged }, .accountMissing)
      | some account =>
        match checkedSub account.held amount with
        | none => ({ st with txHistory := setTxStatus charged t .underDispute }, .overflow)
        | some newHeld =>
          match checkedSub account.total amount with
          | none => ({ st with txHistory := setTxStatus charged t .underDispute }, .overflow)
          | some newTotal =>
            ({ st with
                userAccountMap := updateAccount st.userAccountMap clientId
                  (fun a => { a with held := newHeld, total := newTotal, locked := true }),
                txHistory := charged },
              .accepted)

/-- `PaymentsEngine::process`: dispatch on the event type. -/
def process (st : PaymentsEngine) : Trx → PaymentsEngine × Outcome
  | .deposit c t a => processDeposit st c t a
  | .withdrawal c t a => processWithdrawal st c t a
  | .dispute c t => processDispute st c t
  | .resolve c t => processResolve st c t
  | .chargeback c t => processChargeback st c t

/-- One sequential processing step (the handler's state effect). -/
def step (st : PaymentsEngine) (e : Trx) : PaymentsEngine := (process st e).1

/-- Sequentially process an event list on a fresh engine with the given
capacity configuration. -/
def run (maxTxHistory : Option Nat) (events : List Trx) : PaymentsEngine :=
  events.foldl step (withMaxHistory maxTxHistory)

/-- `UserAccount::verify_totals`: the balance invariant of one account. -/
def balanceOk (a : UserAccount) : Prop := a.total = a.available + a.held

/-- The balance invariant over the whole account store. -/
def balInv (st : PaymentsEngine) : Prop := ∀ a ∈ st.userAccountMap, balanceOk a

/-- One step of the per-record dispute FSM, as observed across one event:
the status is unchanged, or the event is the dispute / resolve / chargeback
of this very transaction making the corresponding FSM transition. -/
def statusStep (e : Trx) (t : Nat) (s s' : TrxStatus) : Prop :=
  s' = s ∨
  (∃ c, e = Trx.dispute c t ∧ s = .normal ∧ s' = .underDispute) ∨
  (∃ c, e = Trx.resolve c t ∧ s = .underDispute ∧ s' = .normal) ∨
  (∃ c, e = Trx.chargeback c t ∧ s = .underDispute ∧ s' = .chargedBack)

/-- Every record in the transaction log names a client whose account exists
in the account store. -/
def logClientsOk (st : PaymentsEngine) : Prop :=
  ∀ p ∈ st.txHistory, (findAccount st.userAccountMap p.2.client).isSome = true

theorem checkedAdd_some {x y z : Int} (h : checkedAdd x y = some z) : z = x + y := by
  unfold checkedAdd at h
  split at h
  · exact Option.noConfusion h
  · injection h with h; exact h.symm

theorem checkedSub_some {x y z : Int} (h : checkedSub x y = some z) : z = x - y := by
  unfold checkedSub at h
  split at h
  · exact Option.noConfusion h
  · injection h with h; exact h.symm

theorem findAccount_client {c : Nat} {a : UserAccount} :
    ∀ {l : List UserAccount}, findAccount l c = some a → a.client = c := by
  intro l
  induction l with
  | nil => intro h; exact Option.noConfusion h
  | cons b rest ih =>
    intro h
    by_cases hc : b.client = c
    · simp [findAccount, hc] at h; subst h; exact hc
    · simp [findAccount, hc] at h; exact ih h

theorem findAccount_mem {c : Nat} {a : UserAccount} :
    ∀ {l : List UserAccount}, findAccount l c = some a → a ∈ l := by
  intro l
  induction l with
  | nil => intro h; exact Option.noConfusion h
  | cons b rest ih =>
    intro h
    by_cases hc : b.client = c
    · simp [findAccount, hc] at h; subst h; exact List.mem_cons_self _ _
    · simp [findAccount, hc] at h; exact List.mem_cons_of_mem _ (ih h)

theorem findAccount_append_left {c : Nat} {a : UserAccount} {l₂ : List UserAccount} :
    ∀ {l : List UserAccount}, findAccount l c = some a →
      findAccount (l ++ l₂) c = some a := by
  intro l
  induction l with
  | nil => intro h; exact Option.noConfusion h
  | cons b rest ih =>
    intro h
    by_cases hc : b.client = c
    · simp [findAccount, hc] at h ⊢; exact h
    · simp [findAccount, hc] at h ⊢; exact ih h

theorem findAccount_append_none {c : Nat} {l₂ : List UserAccount} :
    ∀ {l : List UserAccount}, findAccount l c = none →
      findAccount (l ++ l₂) c = findAccount l₂ c := by
  intro l
  induction l with
  | nil => intro _; rfl
  | cons b rest ih =>
    intro h
    by_cases hc : b.client = c
    · simp [findAccount, hc] at h
    · simp [findAccount, hc] at h ⊢; exact ih h

theorem getOrCreate_of_some {l : List UserAccount} {c : Nat} {a : UserAccount}
    (h : findAccount l c = some a) : getOrCreateAccount l c = (l, a) := by
  simp [getOrCreateAccount, h]

theorem getOrCreate_of_none {l : List UserAccount} {c : Nat}
    (h : findAccount l c = none) :
    getOrCreateAccount l c = (l ++ [UserAccount.new c], UserAccount.new c) := by
  simp [getOrCreateAccount, h]

theorem findAccount_getOrCreate_self (l : List UserAccount) (c : Nat) :
    findAccount (getOrCreateAccount l c).1 c = some (getOrCreateAccount l c).2 := by
  cases h : findAccount l c with
  | some a => rw [getOrCreate_of_some h]; exact h
  | none =>
    rw [getOrCreate_of_none h]
    rw [findAccount_append_none h]
    simp [findAccount, UserAccount.new]

theorem getOrCreate_preserves {l : List UserAccount} {c' : Nat} {a : UserAccount}
    (c : Nat) (h : findAccount l c' = some a) :
    findAccount (getOrCreateAccount l c).1 c' = some a := by
  cases hc : findAccount l c with
  | some b => rw [getOrCreate_of_some hc]; exact h
  | none => rw [getOrCreate_of_none hc]; exact findAccount_append_left h

theorem mem_getOrCreate {l : List UserAccount} {c : Nat} {b : UserAccount}
    (h : b ∈ (getOrCreateAccount l c).1) : b ∈ l ∨ b = UserAccount.new c := by
  cases hc : findAccount l c with
  | some a => rw [getOrCreate_of_some hc] at h; exact Or.inl h
  | none =>
    rw [getOrCreate_of_none hc] at h
    rcases List.mem_append.1 h with h' | h'
    · exact Or.inl h'
    · simp at h'; exact Or.inr h'

theorem getOrCreate_handle (l : List UserAccount) (c : Nat) :
    (getOrCreateAccount l c).2 ∈ l ∨ (getOrCreateAccount l c).2 = UserAccount.new c := by
  cases hc : findAccount l c with
  | some a => rw [getOrCreate_of_some hc]; exact Or.inl (findAccount_mem hc)
  | none => rw [getOrCreate_of_none hc]; exact Or.inr rfl

theorem mem_updateAccount {c : Nat} {f : UserAccount → UserAccount} {b : UserAccount} :
    ∀ {l : List UserAccount}, b ∈ updateAccount l c f →
      b ∈ l ∨ ∃ a, findAccount l c = some a ∧ b = f a := by
  intro l
  induction l with
  | nil => intro h; simp [updateAccount] at h
  | cons a rest ih =>
    intro h
    by_cases hc : a.client = c
    · simp only [updateAccount, if_pos hc] at h
      rcases List.mem_cons.1 h with h | h
      · exact Or.inr ⟨a, by simp [findAccount, hc], h⟩
      · exact Or.inl (List.mem_cons_of_mem _ h)
    · simp only [updateAccount, if_neg hc] at h
      rcases List.mem_cons.1 h with h | h
      · exact Or.inl (by simp [h])
      · rcases ih h with h' | ⟨x, hx, hb⟩
        · exact Or.inl (List.mem_cons_of_mem _ h')
        · exact Or.inr ⟨x, by simp [findAccount, hc, hx], hb⟩

theorem findAccount_updateAccount_self {f : UserAccount → UserAccount}
    (hf : ∀ a, (f a).client = a.client) (c : Nat) :
    ∀ (l : List UserAccount),
      findAccount (updateAccount l c f) c = (findAccount l c).map f := by
  intro l
  induction l with
  | nil => simp [updateAccount, findAccount]
  | cons a rest ih =>
    by_cases hc : a.client = c
    · simp [updateAccount, findAccount, hc, hf a]
    · simp [updateAccount, findAccount, hc, ih]

theorem findAccount_updateAccount_ne {f : UserAccount → UserAccount}
    (hf : ∀ a, (f a).client = a.client) {c c' : Nat} (hne : c' ≠ c) :
    ∀ (l : List UserAccount),
      findAccount (updateAccount l c f) c' = findAccount l c' := by
  intro l
  induction l with
  | nil => simp [updateAccount]
  | cons a rest ih =>
    by_cases hc : a.client = c
    · have hfa : (f a).client = c := by rw [hf a, hc]
      simp [updateAccount, findAccount, hc, hfa, Ne.symm hne]
    · simp [updateAccount, findAccount, hc, ih]

theorem findTx_mem {t : Nat} {r : TxRecord} :
    ∀ {l : List (Nat × TxRecord)}, findTx l t = some r → (t, r) ∈ l := by
  intro l
  induction l with
  | nil => intro h; exact Option.noConfusion h
  | cons p rest ih =>
    obtain ⟨k, q⟩ := p
    intro h
    by_cases hp : k = t
    · simp [findTx, hp] at h; subst hp; subst h; exact List.mem_cons_self _ _
    · simp [findTx, hp] at h; exact List.mem_cons_of_mem _ (ih h)

theorem findTx_key_mem {t : Nat} {r : TxRecord} {l : List (Nat × TxRecord)}
    (h : findTx l t = some r) : t ∈ l.map Prod.fst :=
  List.mem_map.2 ⟨(t, r), findTx_mem h, rfl⟩

theorem findTx_append_left {t : Nat} {r : TxRecord} {l₂ : List (Nat × TxRecord)} :
    ∀ {l : List (Nat × TxRecord)}, findTx l t = some r →
      findTx (l ++ l₂) t = some r := by
  intro l
  induction l with
  | nil => intro h; exact Option.noConfusion h
  | cons p rest ih =>
    obtain ⟨k, q⟩ := p
    intro h
    by_cases hp : k = t
    · simp [findTx, hp] at h ⊢; exact h
    · simp [findTx, hp] at h ⊢; exact ih h

theorem findTx_append_none {t : Nat} {l₂ : List (Nat × TxRecord)} :
    ∀ {l : List (Nat × TxRecord)}, findTx l t = none →
      findTx (l ++ l₂) t = findTx l₂ t := by
  intro l
  induction l with
  | nil => intro _; rfl
  | cons p rest ih =>
    obtain ⟨k, q⟩ := p
    intro h
    by_cases hp : k = t
    · simp [findTx, hp] at h
    · simp [findTx, hp] at h ⊢; exact ih h

theorem findTx_drop_one_none {t : Nat} {l : List (Nat × TxRecord)}
    (h : findTx l t = none) : findTx (l.drop 1) t = none := by
  cases l with
  | nil => exact h
  | cons p rest =>
    obtain ⟨k, q⟩ := p
    by_cases hp : k = t
    · simp [findTx, hp] at h
    · simp [findTx, hp] at h; simpa using h

theorem findTx_drop_one_of_nodup {t : Nat} {r : TxRecord} {l : List (Nat × TxRecord)}
    (hn : (l.map Prod.fst).Nodup) (h : findTx (l.drop 1) t = some r) :
    findTx l t = some r := by
  cases l with
  | nil => simpa using h
  | cons p rest =>
    obtain ⟨k, q⟩ := p
    simp only [List.drop_succ_cons, List.drop_zero] at h
    by_cases hp : k = t
    · exfalso
      subst hp
      have hk : k ∈ rest.map Prod.fst := findTx_key_mem h
      simp only [List.map_cons, List.nodup_cons] at hn
      exact hn.1 hk
    · simp [findTx, hp]; exact h

theorem findTx_setTxStatus_self (t : Nat) (s : TrxStatus) :
    ∀ (l : List (Nat × TxRecord)),
      findTx (setTxStatus l t s) t =
        (findTx l t).map (fun r => { r with status := s }) := by
  intro l
  induction l with
  | nil => simp [setTxStatus, findTx]
  | cons p rest ih =>
    obtain ⟨k, q⟩ := p
    by_cases hp : k = t
    · simp [setTxStatus, findTx, hp]
    · simp [setTxStatus, findTx, hp, ih]

theorem findTx_setTxStatus_ne {t t' : Nat} (s : TrxStatus) (hne : t' ≠ t) :
    ∀ (l : List (Nat × TxRecord)),
      findTx (setTxStatus l t s) t' = findTx l t' := by
  intro l
  induction l with
  | nil => simp [setTxStatus]
  | cons p rest ih =>
    obtain ⟨k, q⟩ := p
    by_cases hp : k = t
    · simp [setTxStatus, findTx, hp, Ne.symm hne]
    · simp [setTxStatus, findTx, hp, ih]

theorem setTxStatus_revert {t : Nat} {r : TxRecord} (s : TrxStatus) :
    ∀ {l : List (Nat × TxRecord)}, findTx l t = some r →
      setTxStatus (setTxStatus l t s) t r.status = l := by
  intro l
  induction l with
  | nil => intro h; exact Option.noConfusion h
  | cons p rest ih =>
    obtain ⟨k, q⟩ := p
    obtain ⟨qc, qa, qs⟩ := q
    intro h
    by_cases hp : k = t
    · simp [findTx, hp] at h
      subst h
      simp [setTxStatus, hp]
    · simp [findTx, hp] at h
      simp [setTxStatus, hp, ih h]

theorem setTxStatus_keys (t : Nat) (s : TrxStatus) :
    ∀ (l : List (Nat × TxRecord)),
      (setTxStatus l t s).map Prod.fst = l.map Prod.fst := by
  intro l
  induction l with
  | nil => rfl
  | cons p rest ih =>
    obtain ⟨k, q⟩ := p
    by_cases hp : k = t
    · simp [setTxStatus, hp]
    · simp [setTxStatus, hp, ih]

theorem setTxStatus_length (t : Nat) (s : TrxStatus) (l : List (Nat × TxRecord)) :
    (setTxStatus l t s).length = l.length := by
  have := setTxStatus_keys t s l
  calc (setTxStatus l t s).length = ((setTxStatus l t s).map Prod.fst).length := by simp
    _ = (l.map Prod.fst).length := by rw [this]
    _ = l.length := by simp

theorem mem_setTxStatus {t : Nat} {s : TrxStatus} {p : Nat × TxRecord} :
    ∀ {l : List (Nat × TxRecord)}, p ∈ setTxStatus l t s →
      p ∈ l ∨ ∃ q, q ∈ l ∧ p = (q.1, { q.2 with status := s }) := by
  intro l
  induction l with
  | nil => intro h; simp [setTxStatus] at h
  | cons x rest ih =>
    obtain ⟨k, q⟩ := x
    intro h
    by_cases hp : k = t
    · simp only [setTxStatus, if_pos hp] at h
      rcases List.mem_cons.1 h with h | h
      · exact Or.inr ⟨(k, q), List.mem_cons_self _ _, h⟩
      · exact Or.inl (List.mem_cons_of_mem _ h)
    · simp only [setTxStatus, if_neg hp] at h
      rcases List.mem_cons.1 h with h | h
      · exact Or.inl (by simp [h])
      · rcases ih h with h' | ⟨y, hy, hp'⟩
        · exact Or.inl (List.mem_cons_of_mem _ h')
        · exact Or.inr ⟨y, List.mem_cons_of_mem _ hy, hp'⟩

theorem insertTx_fresh {l : List (Nat × TxRecord)} {t : Nat} (r : TxRecord)
    (h : containsTx l t = false) : insertTx l t r = l ++ [(t, r)] := by
  simp [insertTx, h]

theorem containsTx_drop_one {l : List (Nat × TxRecord)} {t : Nat}
    (h : containsTx l t = false) : containsTx (l.drop 1) t = false := by
  unfold containsTx at h ⊢
  rw [findTx_drop_one_none (Option.not_isSome_iff_eq_none.1 (by simp [h]))]
  rfl

theorem insertTxWithEviction_fresh {l : List (Nat × TxRecord)} {t : Nat}
    (mh : Option Nat) (c : Nat) (amt : Int) (h : containsTx l t = false) :
    insertTxWithEviction mh l t c amt =
      (match mh with
       | some m => if l.length ≥ m then l.drop 1 else l
       | none => l) ++ [(t, { client := c, amount := amt, status := .normal })] := by
  unfold insertTxWithEviction
  cases mh with
  | none => exact insertTx_fresh _ h
  | some m =>
    by_cases hm : l.length ≥ m
    · simp only [if_pos hm]
      exact insertTx_fresh _ (containsTx_drop_one h)
    · simp only [if_neg hm]
      exact insertTx_fresh _ h

theorem process_maxTxHistory (st : PaymentsEngine) (e : Trx) :
    (process st e).1.maxTxHistory = st.maxTxHistory := by
  cases e <;>
    simp only [process, processDeposit, processWithdrawal, processDispute,
      processResolve, processChargeback] <;>
    (repeat' split) <;> rfl

theorem balanceOk_new (c : Nat) : balanceOk (UserAccount.new c) := by
  simp [balanceOk, UserAccount.new]

theorem balanceOk_getOrCreate {l : List UserAccount} {c : Nat}
    (h : ∀ a ∈ l, balanceOk a) : balanceOk (getOrCreateAccount l c).2 := by
  rcases getOrCreate_handle l c with hm | hn
  · exact h _ hm
  · rw [hn]; exact balanceOk_new c

theorem balInv_getOrCreate {l : List UserAccount} {c : Nat}
    (h : ∀ a ∈ l, balanceOk a) :
    ∀ a ∈ (getOrCreateAccount l c).1, balanceOk a := by
  intro a ha
  rcases mem_getOrCreate ha with hm | hn
  · exact h _ hm
  · rw [hn]; exact balanceOk_new c

/-- Claim C1: for every initial engine state satisfying the balance invariant
and every event, after `process` returns every account in the account store
satisfies `total == available + held`. -/
theorem balance_invariant_preserved (st : PaymentsEngine) (e : Trx)
    (h : balInv st) : balInv (process st e).1 := by
  cases e with
  | deposit c t amt =>
    simp only [process, processDeposit]
    split
    · exact h
    · split
      · exact balInv_getOrCreate h
      · next na hna =>
        split
        · exact balInv_getOrCreate h
        · next nt hnt =>
          intro a ha
          rcases mem_updateAccount ha with hm | ⟨b, hb, rfl⟩
          · exact balInv_getOrCreate h _ hm
          · rw [findAccount_getOrCreate_self st.userAccountMap c] at hb
            injection hb with hb
            subst hb
            have hbal := balanceOk_getOrCreate (c := c) h
            have h1 := checkedAdd_some hna
            have h2 := checkedAdd_some hnt
            simp only [balanceOk] at hbal ⊢
            omega
  | withdrawal c t amt =>
    simp only [process, processWithdrawal]
    split
    · exact h
    · split
      · exact balInv_getOrCreate h
      · split
        · exact balInv_getOrCreate h
        · next na hna =>
          split
          · exact balInv_getOrCreate h
          · next nt hnt =>
            intro a ha
            rcases mem_updateAccount ha with hm | ⟨b, hb, rfl⟩
            · exact balInv_getOrCreate h _ hm
            · rw [findAccount_getOrCreate_self st.userAccountMap c] at hb
              injection hb with hb
              subst hb
              have hbal := balanceOk_getOrCreate (c := c) h
              have h1 := checkedSub_some hna
              have h2 := checkedSub_some hnt
              simp only [balanceOk] at hbal ⊢
              omega
  | dispute c t =>
    simp only [process, processDispute]
    split
    · exact h
    · split
      · exact h
      · split
        · exact h
        · split
          · exact h
          · split
            · exact h
            · next account haccount =>
              split
              · exact h
              · next na hna =>
                split
                · exact h
                · next nh hnh =>
                  intro a ha
                  rcases mem_updateAccount ha with hm | ⟨b, hb, rfl⟩
                  · exact h _ hm
                  · rw [haccount] at hb
                    injection hb with hb
                    subst hb
                    have hbal := h _ (findAccount_mem haccount)
                    have h1 := checkedSub_some hna
                    have h2 := checkedAdd_some hnh
                    simp only [balanceOk] at hbal ⊢
                    omega
  | resolve c t =>
    simp only [process, processResolve]
    split
    · exact h
    · split
      · exact h
      · split
        · exact h
        · split
          · exact h
          · next account haccount =>
            split
            · exact h
            · next nh hnh =>
              split
              · exact h
              · next na hna =>
                intro a ha
                rcases mem_updateAccount ha with hm | ⟨b, hb, rfl⟩
                · exact h _ hm
                · rw [haccount] at hb
                  injection hb with hb
                  subst hb
                  have hbal := h _ (findAccount_mem haccount)
                  have h1 := checkedSub_some hnh
                  have h2 := checkedAdd_some hna
                  simp only [balanceOk] at hbal ⊢
                  omega
  | chargeback c t =>
    simp only [process, processChargeback]
    split
    · exact h
    · split
      · exact h
      · split
        · exact h
        · split
          · exact h
          · next account haccount =>
            split
            · exact h
            · next nh hnh =>
              split
              · exact h
              · next nt hnt =>
                intro a ha
                rcases mem_updateAccount ha with hm | ⟨b, hb, rfl⟩
                · exact h _ hm
                · rw [haccount] at hb
                  injection hb with hb
                  subst hb
                  have hbal := h _ (findAccount_mem haccount)
                  have h1 := checkedSub_some hnh
                  have h2 := checkedSub_some hnt
                  simp only [balanceOk] at hbal ⊢
                  omega

/-- Witness for C1: the invariant holds on the empty engine and is preserved
by a concrete deposit. -/
theorem balance_invariant_preserved_witness :
    balInv (withMaxHistory none) ∧
      balInv (process (withMaxHistory none) (.deposit 1 1 1000000)).1 :=
  ⟨by intro a ha; simp [withMaxHistory] at ha,
   balance_invariant_preserved (withMaxHistory none) (.deposit 1 1 1000000)
     (by intro a ha; simp [withMaxHistory] at ha)⟩

theorem status_normal_of_not {s : TrxStatus} (h1 : ¬s = TrxStatus.chargedBack)
    (h2 : ¬s = TrxStatus.underDispute) : s = TrxStatus.normal := by
  cases s <;> simp_all

/-- Claim C2: a rejected event (duplicate id, insufficient funds, tx not
found, cross-client, wrong dispute status, or arithmetic overflow in any
step) leaves the transaction log and every field of the targeted account
equal to their pre-event values; overflow in the second arithmetic step of
dispute / resolve / chargeback reverts the provisional status write. -/
theorem rejected_event_preserves_state (st : PaymentsEngine) (e : Trx)
    (h : ((process st e).2).isRejection = true) :
    (process st e).1.txHistory = st.txHistory ∧
    ∀ a, findAccount st.userAccountMap e.clientOf = some a →
      findAccount (process st e).1.userAccountMap e.clientOf = some a := by
  cases e with
  | deposit c t amt =>
    simp only [process, processDeposit, Trx.clientOf] at h ⊢
    split
    · exact ⟨rfl, fun a ha => ha⟩
    · split
      · exact ⟨rfl, fun a ha => getOrCreate_preserves c ha⟩
      · split
        · exact ⟨rfl, fun a ha => getOrCreate_preserves c ha⟩
        · simp_all [Outcome.isRejection]
  | withdrawal c t amt =>
    simp only [process, processWithdrawal, Trx.clientOf] at h ⊢
    split
    · exact ⟨rfl, fun a ha => ha⟩
    · split
      · exact ⟨rfl, fun a ha => getOrCreate_preserves c ha⟩
      · split
        · exact ⟨rfl, fun a ha => getOrCreate_preserves c ha⟩
        · split
          · exact ⟨rfl, fun a ha => getOrCreate_preserves c ha⟩
          · simp_all [Outcome.isRejection]
  | dispute c t =>
    simp only [process, processDispute, Trx.clientOf] at h ⊢
    split
    · exact ⟨rfl, fun a ha => ha⟩
    · next txRecord heq =>
      split
      · exact ⟨rfl, fun a ha => ha⟩
      · split
        · exact ⟨rfl, fun a ha => ha⟩
        · next hcb =>
          split
          · exact ⟨rfl, fun a ha => ha⟩
          · next hud =>
            have hs : txRecord.status = TrxStatus.normal :=
              status_normal_of_not hcb hud
            split
            · simp_all [Outcome.isRejection]
            · split
              · refine ⟨?_, fun a ha => ha⟩
                rw [← hs]
                exact setTxStatus_revert _ heq
              · split
                · refine ⟨?_, fun a ha => ha⟩
                  rw [← hs]
                  exact setTxStatus_revert _ heq
                · simp_all [Outcome.isRejection]
  | resolve c t =>
    simp only [process, processResolve, Trx.clientOf] at h ⊢
    split
    · exact ⟨rfl, fun a ha => ha⟩
    · next txRecord heq =>
      split
      · exact ⟨rfl, fun a ha => ha⟩
      · split
        · exact ⟨rfl, fun a ha => ha⟩
        · next hud =>
          have hs : txRecord.status = TrxStatus.underDispute := not_not.1 hud
          split
          · simp_all [Outcome.isRejection]
          · split
            · refine ⟨?_, fun a ha => ha⟩
              rw [← hs]
              exact setTxStatus_revert _ heq
            · split
              · refine ⟨?_, fun a ha => ha⟩
                rw [← hs]
                exact setTxStatus_revert _ heq
              · simp_all [Outcome.isRejection]
  | chargeback c t =>
    simp only [process, processChargeback, Trx.clientOf] at h ⊢
    split
    · exact ⟨rfl, fun a ha => ha⟩
    · next txRecord heq =>
      split
      · exact ⟨rfl, fun a ha => ha⟩
      · split
        · exact ⟨rfl, fun a ha => ha⟩
        · next hud =>
          have hs : txRecord.status = TrxStatus.underDispute := not_not.1 hud
          split
          · simp_all [Outcome.isRejection]
          · split
            · refine ⟨?_, fun a ha => ha⟩
              rw [← hs]
              exact setTxStatus_revert _ heq
            · split
              · refine ⟨?_, fun a ha => ha⟩
                rw [← hs]
                exact setTxStatus_revert _ heq
              · simp_all [Outcome.isRejection]

/-- Witness for C2: a concrete duplicate-id deposit is rejected and changes
nothing. -/
theorem rejected_event_preserves_state_witness :
    ((process (run none [.deposit 1 1 1000000]) (.deposit 1 1 500000)).2).isRejection = true ∧
    (process (run none [.deposit 1 1 1000000]) (.deposit 1 1 500000)).1.txHistory =
      (run none [.deposit 1 1 1000000]).txHistory ∧
    findAccount (process (run none [.deposit 1 1 1000000])
        (.deposit 1 1 500000)).1.userAccountMap 1 =
      some { client := 1, available := 1000000, held := 0,
             total := 1000000, locked := false } := by
  refine ⟨by decide, (rejected_event_preserves_state _ _ (by decide)).1, ?_⟩
  exact (rejected_event_preserves_state (run none [.deposit 1 1 1000000])
    (.deposit 1 1 500000) (by decide)).2 _ (by decide)

/-- Counterexample to C3: with capacity 1, the deposit `tx=1` is accepted,
evicted by the deposit `tx=2`, and a second deposit with the same `tx=1` is
then accepted and stored again — two events sharing one `tx_id` are accepted,
not "at most the first". -/
theorem duplicate_txid_reaccepted_after_eviction :
    (process (withMaxHistory (some 1)) (.deposit 1 1 100000)).2 = .accepted ∧
    (process (run (some 1) [.deposit 1 1 100000, .deposit 1 2 200000])
        (.deposit 1 1 500000)).2 = .accepted ∧
    findTx (run (some 1) [.deposit 1 1 100000, .deposit 1 2 200000,
        .deposit 1 1 500000]).txHistory 1 =
      some { client := 1, amount := 500000, status := .normal } ∧
    findAccount (run (some 1) [.deposit 1 1 100000, .deposit 1 2 200000,
        .deposit 1 1 500000]).userAccountMap 1 =
      some { client := 1, available := 800000, held := 0,
             total := 800000, locked := false } :=
  ⟨by decide, by decide, by decide, by decide⟩

/-- Claim C3 as amended: a deposit or withdrawal whose `tx_id` is still
present in the log is rejected as a duplicate with the whole engine state
unchanged, regardless of client, type, or amount; in particular
`deposit 1 1 100; deposit 1 1 50` leaves client 1 at
`available 100.0000, held 0.0000, total 100.0000`, unlocked, and the log
holds only the first record. -/
theorem duplicate_in_log_rejected :
    (∀ (st : PaymentsEngine) (c t : Nat) (amt : Int),
        containsTx st.txHistory t = true →
          process st (.deposit c t amt) = (st, .duplicateId)) ∧
    (∀ (st : PaymentsEngine) (c t : Nat) (amt : Int),
        containsTx st.txHistory t = true →
          process st (.withdrawal c t amt) = (st, .duplicateId)) ∧
    findAccount (run none [.deposit 1 1 1000000,
        .deposit 1 1 500000]).userAccountMap 1 =
      some { client := 1, available := 1000000, held := 0,
             total := 1000000, locked := false } ∧
    (run none [.deposit 1 1 1000000, .deposit 1 1 500000]).txHistory =
      [(1, { client := 1, amount := 1000000, status := .normal })] := by
  refine ⟨?_, ?_, by decide, by decide⟩
  · intro st c t amt h
    simp [process, processDeposit, h]
  · intro st c t amt h
    simp [process, processWithdrawal, h]

/-- Witness for C3's amended theorem at a concrete duplicate event. -/
theorem duplicate_in_log_rejected_witness :
    process (run none [.deposit 1 1 1000000]) (.withdrawal 2 1 777) =
      (run none [.deposit 1 1 1000000], .duplicateId) :=
  duplicate_in_log_rejected.2.1 _ 2 1 777 (by decide)

theorem findTx_none_not_key_mem {t : Nat} :
    ∀ {l : List (Nat × TxRecord)}, findTx l t = none → t ∉ l.map Prod.fst := by
  intro l
  induction l with
  | nil => intro _ h; simp at h
  | cons p rest ih =>
    obtain ⟨k, q⟩ := p
    intro h hm
    by_cases hp : k = t
    · simp [findTx, hp] at h
    · simp [findTx, hp] at h
      simp only [List.map_cons, List.mem_cons] at hm
      rcases hm with hm | hm
      · exact hp hm.symm
      · exact ih h hm

theorem containsTx_false_findTx {l : List (Nat × TxRecord)} {t : Nat}
    (h : containsTx l t = false) : findTx l t = none := by
  unfold containsTx at h
  exact Option.not_isSome_iff_eq_none.1 (by simp [h])

theorem insertTxWithEviction_keys_nodup {mh : Option Nat}
    {l : List (Nat × TxRecord)} {t c : Nat} {amt : Int}
    (hn : (l.map Prod.fst).Nodup) (hfresh : containsTx l t = false) :
    ((insertTxWithEviction mh l t c amt).map Prod.fst).Nodup := by
  rw [insertTxWithEviction_fresh mh c amt hfresh]
  have hnone := containsTx_false_findTx hfresh
  rcases mh with _ | m
  · simp only [List.map_append, List.map_cons, List.map_nil]
    rw [List.nodup_append]
    refine ⟨hn, List.nodup_singleton t, ?_⟩
    intro a ha hb
    simp only [List.mem_singleton] at hb
    subst hb
    exact findTx_none_not_key_mem hnone ha
  · by_cases hm : l.length ≥ m
    · simp only [ge_iff_le, hm, if_true, List.map_append, List.map_cons, List.map_nil]
      have hsub : ((l.drop 1).map Prod.fst).Sublist (l.map Prod.fst) :=
        (List.drop_sublist 1 l).map Prod.fst
      rw [List.nodup_append]
      refine ⟨hn.sublist hsub, List.nodup_singleton t, ?_⟩
      intro a ha hb
      simp only [List.mem_singleton] at hb
      subst hb
      exact findTx_none_not_key_mem (findTx_drop_one_none hnone) ha
    · simp only [ge_iff_le, hm, if_false, List.map_append, List.map_cons, List.map_nil]
      rw [List.nodup_append]
      refine ⟨hn, List.nodup_singleton t, ?_⟩
      intro a ha hb
      simp only [List.mem_singleton] at hb
      subst hb
      exact findTx_none_not_key_mem hnone ha

theorem step_keys_nodup {st : PaymentsEngine} (e : Trx)
    (hn : (st.txHistory.map Prod.fst).Nodup) :
    (((step st e).txHistory).map Prod.fst).Nodup := by
  cases e with
  | deposit c t amt =>
    simp only [step, process, processDeposit]
    split
    · exact hn
    · next hdup =>
      have hfresh : containsTx st.txHistory t = false := by
        simpa using hdup
      split
      · exact hn
      · split
        · exact hn
        · exact insertTxWithEviction_keys_nodup hn hfresh
  | withdrawal c t amt =>
    simp only [step, process, processWithdrawal]
    split
    · exact hn
    · next hdup =>
      have hfresh : containsTx st.txHistory t = false := by
        simpa using hdup
      split
      · exact hn
      · split
        · exact hn
        · split
          · exact hn
          · exact insertTxWithEviction_keys_nodup hn hfresh
  | dispute c t =>
    simp only [step, process, processDispute]
    split
    · exact hn
    · split
      · exact hn
      · split
        · exact hn
        · split
          · exact hn
          · split
            · simpa [setTxStatus_keys] using hn
            · split
              · simpa [setTxStatus_keys] using hn
              · split
                · simpa [setTxStatus_keys] using hn
                · simpa [setTxStatus_keys] using hn
  | resolve c t =>
    simp only [step, process, processResolve]
    split
    · exact hn
    · split
      · exact hn
      · split
        · exact hn
        · split
          · simpa [setTxStatus_keys] using hn
          · split
            · simpa [setTxStatus_keys] using hn
            · split
              · simpa [setTxStatus_keys] using hn
              · simpa [setTxStatus_keys] using hn
  | chargeback c t =>
    simp only [step, process, processChargeback]
    split
    · exact hn
    · split
      · exact hn
      · split
        · exact hn
        · split
          · simpa [setTxStatus_keys] using hn
          · split
            · simpa [setTxStatus_keys] using hn
            · split
              · simpa [setTxStatus_keys] using hn
              · simpa [setTxStatus_keys] using hn

theorem foldl_step_keys_nodup (evs : List Trx) :
    ∀ (st : PaymentsEngine), (st.txHistory.map Prod.fst).Nodup →
      (((evs.foldl step st).txHistory).map Prod.fst).Nodup := by
  induction evs with
  | nil => intro st h; exact h
  | cons e rest ih => intro st h; exact ih _ (step_keys_nodup e h)

theorem run_keys_nodup (mh : Option Nat) (evs : List Trx) :
    (((run mh evs).txHistory).map Prod.fst).Nodup :=
  foldl_step_keys_nodup evs _ (by simp [withMaxHistory])

theorem insertTxWithEviction_fresh_none {l : List (Nat × TxRecord)} {t : Nat}
    (c : Nat) (amt : Int) (h : containsTx l t = false) :
    insertTxWithEviction none l t c amt =
      l ++ [(t, { client := c, amount := amt, status := .normal })] :=
  insertTx_fresh _ h

theorem insertTxWithEviction_fresh_ge {l : List (Nat × TxRecord)} {t m : Nat}
    (c : Nat) (amt : Int) (h : containsTx l t = false) (hm : l.length ≥ m) :
    insertTxWithEviction (some m) l t c amt =
      l.drop 1 ++ [(t, { client := c, amount := amt, status := .normal })] := by
  rw [insertTxWithEviction_fresh (some m) c amt h]
  simp [hm]

theorem insertTxWithEviction_fresh_lt {l : List (Nat × TxRecord)} {t m : Nat}
    (c : Nat) (amt : Int) (h : containsTx l t = false) (hm : ¬l.length ≥ m) :
    insertTxWithEviction (some m) l t c amt =
      l ++ [(t, { client := c, amount := amt, status := .normal })] := by
  rw [insertTxWithEviction_fresh (some m) c amt h]
  simp [hm]

theorem findTx_insertTxWithEviction_old {mh : Option Nat}
    {l : List (Nat × TxRecord)} {t t' c : Nat} {amt : Int} {r r' : TxRecord}
    (hn : (l.map Prod.fst).Nodup)
    (hfresh : containsTx l t = false)
    (hb : findTx l t' = some r)
    (ha : findTx (insertTxWithEviction mh l t c amt) t' = some r') :
    r' = r := by
  have hne : t' ≠ t := by
    intro hEq
    subst hEq
    rw [containsTx_false_findTx hfresh] at hb
    exact Option.noConfusion hb
  rcases mh with _ | m
  · rw [insertTxWithEviction_fresh_none c amt hfresh] at ha
    rw [findTx_append_left hb] at ha
    injection ha with ha
    exact ha.symm
  · by_cases hm : l.length ≥ m
    · rw [insertTxWithEviction_fresh_ge c amt hfresh hm] at ha
      cases hfind : findTx (l.drop 1) t' with
      | some x =>
        rw [findTx_append_left hfind] at ha
        injection ha with ha
        have hx := findTx_drop_one_of_nodup hn hfind
        rw [hb] at hx
        injection hx with hx
        rw [← ha, hx]
      | none =>
        rw [findTx_append_none hfind] at ha
        simp [findTx, Ne.symm hne] at ha
    · rw [insertTxWithEviction_fresh_lt c amt hfresh hm] at ha
      rw [findTx_append_left hb] at ha
      injection ha with ha
      exact ha.symm

theorem statusStep_of_step {st : PaymentsEngine} {e : Trx} {t : Nat}
    {r r' : TxRecord}
    (hn : (st.txHistory.map Prod.fst).Nodup)
    (hb : findTx st.txHistory t = some r)
    (ha : findTx (process st e).1.txHistory t = some r') :
    statusStep e t r.status r'.status := by
  cases e with
  | deposit c tx amt =>
    simp only [process, processDeposit] at ha
    split at ha
    · left; rw [hb] at ha; injection ha with ha; rw [← ha]
    · next hdup =>
      have hfresh : containsTx st.txHistory tx = false := by simpa using hdup
      split at ha
      · left; rw [hb] at ha; injection ha with ha; rw [← ha]
      · split at ha
        · left; rw [hb] at ha; injection ha with ha; rw [← ha]
        · left; rw [findTx_insertTxWithEviction_old hn hfresh hb ha]
  | withdrawal c tx amt =>
    simp only [process, processWithdrawal] at ha
    split at ha
    · left; rw [hb] at ha; injection ha with ha; rw [← ha]
    · next hdup =>
      have hfresh : containsTx st.txHistory tx = false := by simpa using hdup
      split at ha
      · left; rw [hb] at ha; injection ha with ha; rw [← ha]
      · split at ha
        · left; rw [hb] at ha; injection ha with ha; rw [← ha]
        · split at ha
          · left; rw [hb] at ha; injection ha with ha; rw [← ha]
          · left; rw [findTx_insertTxWithEviction_old hn hfresh hb ha]
  | dispute c tx =>
    simp only [process, processDispute] at ha
    split at ha
    · left; rw [hb] at ha; injection ha with ha; rw [← ha]
    · next txRecord heq =>
      split at ha
      · left; rw [hb] at ha; injection ha with ha; rw [← ha]
      · split at ha
        · left; rw [hb] at ha; injection ha with ha; rw [← ha]
        · next hcb =>
          split at ha
          · left; rw [hb] at ha; injection ha with ha; rw [← ha]
          · next hud =>
            have hs : txRecord.status = TrxStatus.normal :=
              status_normal_of_not hcb hud
            have hrev : setTxStatus (setTxStatus st.txHistory tx
                TrxStatus.underDispute) tx TrxStatus.normal = st.txHistory := by
              rw [← hs]
              exact setTxStatus_revert _ heq
            split at ha
            · by_cases ht : t = tx
              · subst ht
                rw [hb] at heq
                injection heq with heq
                rw [findTx_setTxStatus_self, hb] at ha
                simp only [Option.map_some', Option.some.injEq] at ha
                refine Or.inr (Or.inl ⟨c, rfl, ?_, ?_⟩)
                · rw [heq, hs]
                · rw [← ha]
              · rw [findTx_setTxStatus_ne _ ht] at ha
                left; rw [hb] at ha; injection ha with ha; rw [← ha]
            · split at ha
              · rw [hrev] at ha
                left; rw [hb] at ha; injection ha with ha; rw [← ha]
              · split at ha
                · rw [hrev] at ha
                  left; rw [hb] at ha; injection ha with ha; rw [← ha]
                · by_cases ht : t = tx
                  · subst ht
                    rw [hb] at heq
                    injection heq with heq
                    rw [findTx_setTxStatus_self, hb] at ha
                    simp only [Option.map_some', Option.some.injEq] at ha
                    refine Or.inr (Or.inl ⟨c, rfl, ?_, ?_⟩)
                    · rw [heq, hs]
                    · rw [← ha]
                  · rw [findTx_setTxStatus_ne _ ht] at ha
                    left; rw [hb] at ha; injection ha with ha; rw [← ha]
  | resolve c tx =>
    simp only [process, processResolve] at ha
    split at ha
    · left; rw [hb] at ha; injection ha with ha; rw [← ha]
    · next txRecord heq =>
      split at ha
      · left; rw [hb] at ha; injection ha with ha; rw [← ha]
      · split at ha
        · left; rw [hb] at ha; injection ha with ha; rw [← ha]
        · next hud =>
          have hs : txRecord.status = TrxStatus.underDispute := not_not.1 hud
          have hrev : setTxStatus (setTxStatus st.txHistory tx
              TrxStatus.normal) tx TrxStatus.underDispute = st.txHistory := by
            rw [← hs]
            exact setTxStatus_revert _ heq
          split at ha
          · by_cases ht : t = tx
            · subst ht
              rw [hb] at heq
              injection heq with heq
              rw [findTx_setTxStatus_self, hb] at ha
              simp only [Option.map_some', Option.some.injEq] at ha
              refine Or.inr (Or.inr (Or.inl ⟨c, rfl, ?_, ?_⟩))
              · rw [heq, hs]
              · rw [← ha]
            · rw [findTx_setTxStatus_ne _ ht] at ha
              left; rw [hb] at ha; injection ha with ha; rw [← ha]
          · split at ha
            · rw [hrev] at ha
              left; rw [hb] at ha; injection ha with ha; rw [← ha]
            · split at ha
              · rw [hrev] at ha
                left; rw [hb] at ha; injection ha with ha; rw [← ha]
              · by_cases ht : t = tx
                · subst ht
                  rw [hb] at heq
                  injection heq with heq
                  rw [findTx_setTxStatus_self, hb] at ha
                  simp only [Option.map_some', Option.some.injEq] at ha
                  refine Or.inr (Or.inr (Or.inl ⟨c, rfl, ?_, ?_⟩))
                  · rw [heq, hs]
                  · rw [← ha]
                · rw [findTx_setTxStatus_ne _ ht] at ha
                  left; rw [hb] at ha; injection ha with ha; rw [← ha]
  | chargeback c tx =>
    simp only [process, processChargeback] at ha
    split at ha
    · left; rw [hb] at ha; injection ha with ha; rw [← ha]
    · next txRecord heq =>
      split at ha
      · left; rw [hb] at ha; injection ha with ha; rw [← ha]
      · split at ha
        · left; rw [hb] at ha; injection ha with ha; rw [← ha]
        · next hud =>
          have hs : txRecord.status = TrxStatus.underDispute := not_not.1 hud
          have hrev : setTxStatus (setTxStatus st.txHistory tx
              TrxStatus.chargedBack) tx TrxStatus.underDispute = st.txHistory := by
            rw [← hs]
            exact setTxStatus_revert _ heq
          split at ha
          · by_cases ht : t = tx
            · subst ht
              rw [hb] at heq
              injection heq with heq
              rw [findTx_setTxStatus_self, hb] at ha
              simp only [Option.map_some', Option.some.injEq] at ha
              refine Or.inr (Or.inr (Or.inr ⟨c, rfl, ?_, ?_⟩))
              · rw [heq, hs]
              · rw [← ha]
            · rw [findTx_setTxStatus_ne _ ht] at ha
              left; rw [hb] at ha; injection ha with ha; rw [← ha]
          · split at ha
            · rw [hrev] at ha
              left; rw [hb] at ha; injection ha with ha; rw [← ha]
            · split at ha
              · rw [hrev] at ha
                left; rw [hb] at ha; injection ha with ha; rw [← ha]
              · by_cases ht : t = tx
                · subst ht
                  rw [hb] at heq
                  injection heq with heq
                  rw [findTx_setTxStatus_self, hb] at ha
                  simp only [Option.map_some', Option.some.injEq] at ha
                  refine Or.inr (Or.inr (Or.inr ⟨c, rfl, ?_, ?_⟩))
                  · rw [heq, hs]
                  · rw [← ha]
                · rw [findTx_setTxStatus_ne _ ht] at ha
                  left; rw [hb] at ha; injection ha with ha; rw [← ha]

/-- Claim C4: across any event applied to any reachable engine state, a
record's status moves only along the FSM
`Normal → UnderDispute → {Normal, ChargedBack}`: a dispute changes status
only `Normal → UnderDispute`, a resolve only `UnderDispute → Normal`, a
chargeback only `UnderDispute → ChargedBack`, and `ChargedBack` is
absorbing. -/
theorem fsm_soundness (mh : Option Nat) (evs : List Trx) (e : Trx) (t : Nat)
    (r r' : TxRecord)
    (hb : findTx (run mh evs).txHistory t = some r)
    (ha : findTx (process (run mh evs) e).1.txHistory t = some r') :
    statusStep e t r.status r'.status :=
  statusStep_of_step (run_keys_nodup mh evs) hb ha

/-- Witness for C4: a concrete dispute moves a stored deposit record from
`Normal` to `UnderDispute`. -/
theorem fsm_soundness_witness :
    statusStep (.dispute 1 1) 1 TrxStatus.normal TrxStatus.underDispute := by
  have h := fsm_soundness none [.deposit 1 1 1000000] (.dispute 1 1) 1
    { client := 1, amount := 1000000, status := .normal }
    { client := 1, amount := 1000000, status := .underDispute }
    (by decide) (by decide)
  exact h

/-- Claim C5: a dispute of an in-log `Normal` transaction owned by the
disputing client commits `available - amount` and `held + amount` (absent
overflow) with no non-negativity requirement on the new `available`. -/
theorem dispute_may_go_negative (st : PaymentsEngine) (c t : Nat)
    (r : TxRecord) (a : UserAccount) (na nh : Int)
    (hr : findTx st.txHistory t = some r) (hc : r.client = c)
    (hs : r.status = TrxStatus.normal)
    (ha : findAccount st.userAccountMap c = some a)
    (hav : checkedSub a.available r.amount = some na)
    (hh : checkedAdd a.held r.amount = some nh) :
    (process st (.dispute c t)).2 = Outcome.accepted ∧
    findAccount (process st (.dispute c t)).1.userAccountMap c =
      some { a with available := na, held := nh } := by
  have hstep : process st (.dispute c t) =
      ({ st with
          userAccountMap := updateAccount st.userAccountMap c
            (fun x => { x with available := na, held := nh }),
          txHistory := setTxStatus st.txHistory t .underDispute },
        .accepted) := by
    simp [process, processDispute, hr, hc, hs, ha, hav, hh]
  rw [hstep]
  refine ⟨rfl, ?_⟩
  dsimp only
  rw [findAccount_updateAccount_self
    (f := fun x => { x with available := na, held := nh }) (fun x => rfl) c, ha]
  rfl

/-- Witness for C5: `deposit 1 1 100; withdrawal 1 2 80; dispute 1 1` leaves
client 1 at `available -80.0000, held 100.0000, total 20.0000`, unlocked. -/
theorem dispute_may_go_negative_witness :
    (process (run none [.deposit 1 1 1000000, .withdrawal 1 2 800000])
        (.dispute 1 1)).2 = Outcome.accepted ∧
    findAccount (process (run none [.deposit 1 1 1000000, .withdrawal 1 2 800000])
        (.dispute 1 1)).1.userAccountMap 1 =
      some { client := 1, available := -800000, held := 1000000,
             total := 200000, locked := false } := by
  have h := dispute_may_go_negative
    (run none [.deposit 1 1 1000000, .withdrawal 1 2 800000]) 1 1
    { client := 1, amount := 1000000, status := .normal }
    { client := 1, available := 200000, held := 0, total := 200000, locked := false }
    (-800000) 1000000
    (by decide) (by decide) (by decide) (by decide) (by decide) (by decide)
  exact h

/-- Claim C6: with a finite capacity, inserting a fresh transaction into a
full log removes exactly the oldest entry (smallest insertion index) and
appends the new record; a dispute of a tx id absent from the log (for
example because it was evicted) is rejected with the whole state unchanged;
the concrete capacity-2 scenario of the spec holds. -/
theorem fifo_eviction_strict :
    (∀ (C : Nat) (l : List (Nat × TxRecord)) (t c : Nat) (amt : Int),
        l.length ≥ C → containsTx l t = false →
          insertTxWithEviction (some C) l t c amt =
            l.drop 1 ++ [(t, { client := c, amount := amt, status := .normal })]) ∧
    (∀ (st : PaymentsEngine) (c t : Nat),
        findTx st.txHistory t = none →
          process st (.dispute c t) = (st, .txNotFound)) ∧
    (run (some 2) [.deposit 1 1 100000, .deposit 1 2 200000, .deposit 1 3 300000,
        .dispute 1 1]).txHistory =
      [(2, { client := 1, amount := 200000, status := .normal }),
       (3, { client := 1, amount := 300000, status := .normal })] ∧
    findAccount (run (some 2) [.deposit 1 1 100000, .deposit 1 2 200000,
        .deposit 1 3 300000, .dispute 1 1]).userAccountMap 1 =
      some { client := 1, available := 600000, held := 0,
             total := 600000, locked := false } := by
  refine ⟨?_, ?_, by decide, by decide⟩
  · intro C l t c amt hm hfresh
    exact insertTxWithEviction_fresh_ge c amt hfresh hm
  · intro st c t h
    simp [process, processDispute, h]

/-- Witness for C6: the concrete third insert at capacity 2 evicts the
record of tx 1, and the subsequent dispute of tx 1 is dropped. -/
theorem fifo_eviction_strict_witness :
    insertTxWithEviction (some 2)
        [(1, { client := 1, amount := 100000, status := .normal }),
         (2, { client := 1, amount := 200000, status := .normal })] 3 1 300000 =
      [(2, { client := 1, amount := 200000, status := .normal }),
       (3, { client := 1, amount := 300000, status := .normal })] ∧
    process (run (some 2) [.deposit 1 1 100000, .deposit 1 2 200000,
        .deposit 1 3 300000]) (.dispute 1 1) =
      (run (some 2) [.deposit 1 1 100000, .deposit 1 2 200000,
        .deposit 1 3 300000], .txNotFound) :=
  ⟨fifo_eviction_strict.1 2 _ 3 1 300000 (by decide) (by decide),
   fifo_eviction_strict.2.1 _ 1 1 (by decide)⟩

/-- Counterexample to C7: with configured capacity `C = 0` a single deposit
leaves one entry in the log, exceeding the claimed bound `|log| ≤ C`. -/
theorem log_bound_fails_at_zero_capacity :
    (run (some 0) [.deposit 1 1 1000000]).txHistory.length = 1 := by decide

theorem insertTxWithEviction_length_le {m : Nat} (hm : 1 ≤ m)
    {l : List (Nat × TxRecord)} {t c : Nat} {amt : Int}
    (hlen : l.length ≤ m) (hfresh : containsTx l t = false) :
    (insertTxWithEviction (some m) l t c amt).length ≤ m := by
  by_cases hge : l.length ≥ m
  · rw [insertTxWithEviction_fresh_ge c amt hfresh hge]
    simp only [List.length_append, List.length_drop, List.length_cons,
      List.length_nil]
    omega
  · rw [insertTxWithEviction_fresh_lt c amt hfresh hge]
    simp only [List.length_append, List.length_cons, List.length_nil]
    omega

theorem step_log_length {st : PaymentsEngine} {m : Nat} (e : Trx)
    (hmax : st.maxTxHistory = some m) (hm : 1 ≤ m)
    (hlen : st.txHistory.length ≤ m) :
    (step st e).txHistory.length ≤ m := by
  cases e with
  | deposit c t amt =>
    simp only [step, process, processDeposit]
    split
    · exact hlen
    · next hdup =>
      have hfresh : containsTx st.txHistory t = false := by simpa using hdup
      split
      · exact hlen
      · split
        · exact hlen
        · show (insertTxWithEviction st.maxTxHistory st.txHistory t c amt).length ≤ m
          rw [hmax]
          exact insertTxWithEviction_length_le hm hlen hfresh
  | withdrawal c t amt =>
    simp only [step, process, processWithdrawal]
    split
    · exact hlen
    · next hdup =>
      have hfresh : containsTx st.txHistory t = false := by simpa using hdup
      split
      · exact hlen
      · split
        · exact hlen
        · split
          · exact hlen
          · show (insertTxWithEviction st.maxTxHistory st.txHistory t c amt).length ≤ m
            rw [hmax]
            exact insertTxWithEviction_length_le hm hlen hfresh
  | dispute c t =>
    simp only [step, process, processDispute]
    split
    · exact hlen
    · split
      · exact hlen
      · split
        · exact hlen
        · split
          · exact hlen
          · split
            · simpa [setTxStatus_length] using hlen
            · split
              · simpa [setTxStatus_length] using hlen
              · split
                · simpa [setTxStatus_length] using hlen
                · simpa [setTxStatus_length] using hlen
  | resolve c t =>
    simp only [step, process, processResolve]
    split
    · exact hlen
    · split
      · exact hlen
      · split
        · exact hlen
        · split
          · simpa [setTxStatus_length] using hlen
          · split
            · simpa [setTxStatus_length] using hlen
            · split
              · simpa [setTxStatus_length] using hlen
              · simpa [setTxStatus_length] using hlen
  | chargeback c t =>
    simp only [step, process, processChargeback]
    split
    · exact hlen
    · split
      · exact hlen
      · split
        · exact hlen
        · split
          · simpa [setTxStatus_length] using hlen
          · split
            · simpa [setTxStatus_length] using hlen
            · split
              · simpa [setTxStatus_length] using hlen
              · simpa [setTxStatus_length] using hlen

theorem foldl_log_length {m : Nat} (hm : 1 ≤ m) (evs : List Trx) :
    ∀ (st : PaymentsEngine), st.maxTxHistory = some m →
      st.txHistory.length ≤ m → ((evs.foldl step st).txHistory).length ≤ m := by
  induction evs with
  | nil => intro st _ h; exact h
  | cons e rest ih =>
    intro st hmax h
    exact ih _ ((process_maxTxHistory st e).trans hmax) (step_log_length e hmax hm h)

/-- Claim C7 as amended: for every configured finite capacity `C ≥ 1` the
log size never exceeds `C` after any event; at `C = 0` the bound fails (the
log can hold one entry, see the counterexample). -/
theorem log_bound_positive_capacity (C : Nat) (hC : 1 ≤ C) (evs : List Trx) :
    (run (some C) evs).txHistory.length ≤ C :=
  foldl_log_length hC evs _ rfl (by simp [withMaxHistory])

/-- Witness for C7's amended theorem at capacity 1. -/
theorem log_bound_positive_capacity_witness :
    (run (some 1) [.deposit 1 1 100000, .deposit 1 2 200000]).txHistory.length ≤ 1 :=
  log_bound_positive_capacity 1 (by decide) [.deposit 1 1 100000, .deposit 1 2 200000]

/-- Counterexample to C8: a withdrawal on a fresh engine is rejected for
insufficient funds, yet the previously unseen client now has a zero-valued
account — account creation happens before the funds check. -/
theorem rejected_withdrawal_creates_account :
    (process (withMaxHistory none) (.withdrawal 1 1 50000)).2 =
      Outcome.insufficientFunds ∧
    findAccount (process (withMaxHistory none)
        (.withdrawal 1 1 50000)).1.userAccountMap 1 =
      some { client := 1, available := 0, held := 0, total := 0, locked := false } :=
  ⟨by decide, by decide⟩

theorem findAccount_getOrCreate_ne {l : List UserAccount} {c c' : Nat}
    (h : c ≠ c') :
    findAccount (getOrCreateAccount l c').1 c = findAccount l c := by
  cases hc : findAccount l c' with
  | some a => rw [getOrCreate_of_some hc]
  | none =>
    rw [getOrCreate_of_none hc]
    show findAccount (l ++ [UserAccount.new c']) c = findAccount l c
    cases hf : findAccount l c with
    | some a => exact findAccount_append_left hf
    | none =>
      rw [findAccount_append_none hf]
      simp [findAccount, UserAccount.new, Ne.symm h]

theorem findAccount_isSome_updateAccount {f : UserAccount → UserAccount}
    (hf : ∀ a, (f a).client = a.client) (l : List UserAccount) (c c' : Nat) :
    (findAccount (updateAccount l c f) c').isSome = (findAccount l c').isSome := by
  by_cases h : c' = c
  · subst h
    rw [findAccount_updateAccount_self hf c' l]
    cases findAccount l c' <;> rfl
  · rw [findAccount_updateAccount_ne hf h l]

theorem getOrCreate_isSome_iff (l : List UserAccount) (c c' : Nat) :
    (findAccount (getOrCreateAccount l c').1 c).isSome = true ↔
      ((findAccount l c).isSome = true ∨ c = c') := by
  by_cases hcc : c = c'
  · subst hcc
    simp [findAccount_getOrCreate_self l c]
  · rw [findAccount_getOrCreate_ne hcc]
    simp [hcc]

/-- Claim C8 as amended: after any event, a client has an account iff it had
one before or the event was a deposit or withdrawal for that client whose tx
id was not already in the log — account creation precedes the
insufficient-funds and overflow checks, so even such a rejected event
creates the (zero-valued) account, while dispute-family events never create
accounts. -/
theorem account_creation_iff (st : PaymentsEngine) (e : Trx) (c : Nat) :
    (findAccount (process st e).1.userAccountMap c).isSome = true ↔
      ((findAccount st.userAccountMap c).isSome = true ∨
        ∃ t a, (e = Trx.deposit c t a ∨ e = Trx.withdrawal c t a) ∧
          containsTx st.txHistory t = false) := by
  cases e with
  | deposit c' t amt =>
    simp only [process, processDeposit]
    split
    · next hdup =>
      constructor
      · exact fun h => Or.inl h
      · rintro (h | ⟨t', a', heq' | heq', hfresh⟩)
        · exact h
        · injection heq' with h1 h2 h3
          subst h2
          rw [hdup] at hfresh
          exact Bool.noConfusion hfresh
        · exact Trx.noConfusion heq'
    · next hdup' =>
      have hfresh : containsTx st.txHistory t = false := by simpa using hdup'
      have key : ((findAccount st.userAccountMap c).isSome = true ∨ c = c') ↔
          ((findAccount st.userAccountMap c).isSome = true ∨
            ∃ t' a', (Trx.deposit c' t amt = Trx.deposit c t' a' ∨
              Trx.deposit c' t amt = Trx.withdrawal c t' a') ∧
              containsTx st.txHistory t' = false) := by
        constructor
        · rintro (h | rfl)
          · exact Or.inl h
          · exact Or.inr ⟨t, amt, Or.inl rfl, hfresh⟩
        · rintro (h | ⟨t', a', heq' | heq', hf'⟩)
          · exact Or.inl h
          · injection heq' with h1 h2 h3
            exact Or.inr h1.symm
          · exact Trx.noConfusion heq'
      split
      · dsimp only
        rw [getOrCreate_isSome_iff]
        exact key
      · next na hna =>
        split
        · dsimp only
          rw [getOrCreate_isSome_iff]
          exact key
        · next nt hnt =>
          dsimp only
          rw [findAccount_isSome_updateAccount
            (f := fun a => { a with available := na, total := nt })
            (fun a => rfl) ((getOrCreateAccount st.userAccountMap c').1) c' c]
          rw [getOrCreate_isSome_iff]
          exact key
  | withdrawal c' t amt =>
    simp only [process, processWithdrawal]
    split
    · next hdup =>
      constructor
      · exact fun h => Or.inl h
      · rintro (h | ⟨t', a', heq' | heq', hfresh⟩)
        · exact h
        · exact Trx.noConfusion heq'
        · injection heq' with h1 h2 h3
          subst h2
          rw [hdup] at hfresh
          exact Bool.noConfusion hfresh
    · next hdup' =>
      have hfresh : containsTx st.txHistory t = false := by simpa using hdup'
      have key : ((findAccount st.userAccountMap c).isSome = true ∨ c = c') ↔
          ((findAccount st.userAccountMap c).isSome = true ∨
            ∃ t' a', (Trx.withdrawal c' t amt = Trx.deposit c t' a' ∨
              Trx.withdrawal c' t amt = Trx.withdrawal c t' a') ∧
              containsTx st.txHistory t' = false) := by
        constructor
        · rintro (h | rfl)
          · exact Or.inl h
          · exact Or.inr ⟨t, amt, Or.inr rfl, hfresh⟩
        · rintro (h | ⟨t', a', heq' | heq', hf'⟩)
          · exact Or.inl h
          · exact Trx.noConfusion heq'
          · injection heq' with h1 h2 h3
            exact Or.inr h1.symm
      split
      · dsimp only
        rw [getOrCreate_isSome_iff]
        exact key
      · split
        · dsimp only
          rw [getOrCreate_isSome_iff]
          exact key
        · next na hna =>
          split
          · dsimp only
            rw [getOrCreate_isSome_iff]
            exact key
          · next nt hnt =>
            dsimp only
            rw [findAccount_isSome_updateAccount
              (f := fun a => { a with available := na, total := nt })
              (fun a => rfl) ((getOrCreateAccount st.userAccountMap c').1) c' c]
            rw [getOrCreate_isSome_iff]
            exact key
  | dispute c' t =>
    have hno : ¬∃ t' a', (Trx.dispute c' t = Trx.deposit c t' a' ∨
        Trx.dispute c' t = Trx.withdrawal c t' a') ∧
        containsTx st.txHistory t' = false := by
      rintro ⟨t', a', heq' | heq', _⟩ <;> exact Trx.noConfusion heq'
    simp only [process, processDispute]
    split
    · exact (or_iff_left hno).symm
    · split
      · exact (or_iff_left hno).symm
      · split
        · exact (or_iff_left hno).symm
        · split
          · exact (or_iff_left hno).symm
          · split
            · exact (or_iff_left hno).symm
            · split
              · exact (or_iff_left hno).symm
              · next na hna =>
                split
                · exact (or_iff_left hno).symm
                · next nh hnh =>
                  dsimp only
                  rw [findAccount_isSome_updateAccount
                    (f := fun a => { a with available := na, held := nh })
                    (fun a => rfl) st.userAccountMap c' c]
                  exact (or_iff_left hno).symm
  | resolve c' t =>
    have hno : ¬∃ t' a', (Trx.resolve c' t = Trx.deposit c t' a' ∨
        Trx.resolve c' t = Trx.withdrawal c t' a') ∧
        containsTx st.txHistory t' = false := by
      rintro ⟨t', a', heq' | heq', _⟩ <;> exact Trx.noConfusion heq'
    simp only [process, processResolve]
    split
    · exact (or_iff_left hno).symm
    · split
      · exact (or_iff_left hno).symm
      · split
        · exact (or_iff_left hno).symm
        · split
          · exact (or_iff_left hno).symm
          · split
            · exact (or_iff_left hno).symm
            · next nh hnh =>
              split
              · exact (or_iff_left hno).symm
              · next na hna =>
                dsimp only
                rw [findAccount_isSome_updateAccount
                  (f := fun a => { a with held := nh, available := na })
                  (fun a => rfl) st.userAccountMap c' c]
                exact (or_iff_left hno).symm
  | chargeback c' t =>
    have hno : ¬∃ t' a', (Trx.chargeback c' t = Trx.deposit c t' a' ∨
        Trx.chargeback c' t = Trx.withdrawal c t' a') ∧
        containsTx st.txHistory t' = false := by
      rintro ⟨t', a', heq' | heq', _⟩ <;> exact Trx.noConfusion heq'
    simp only [process, processChargeback]
    split
    · exact (or_iff_left hno).symm
    · split
      · exact (or_iff_left hno).symm
      · split
        · exact (or_iff_left hno).symm
        · split
          · exact (or_iff_left hno).symm
          · split
            · exact (or_iff_left hno).symm
            · next nh hnh =>
              split
              · exact (or_iff_left hno).symm
              · next nt hnt =>
                dsimp only
                rw [findAccount_isSome_updateAccount
                  (f := fun a => { a with held := nh, total := nt, locked := true })
                  (fun a => rfl) st.userAccountMap c' c]
                exact (or_iff_left hno).symm

/-- Witness for C8's amended theorem: the rejected withdrawal of the
counterexample indeed creates the account, through the right-hand side of
the equivalence. -/
theorem account_creation_iff_witness :
    (findAccount (process (withMaxHistory none)
        (.withdrawal 1 1 50000)).1.userAccountMap 1).isSome = true :=
  (account_creation_iff (withMaxHistory none) (.withdrawal 1 1 50000) 1).mpr
    (Or.inr ⟨1, 50000, Or.inr rfl, by decide⟩)

theorem mem_insertTxWithEviction {mh : Option Nat} {l : List (Nat × TxRecord)}
    {t c : Nat} {amt : Int} {p : Nat × TxRecord}
    (hfresh : containsTx l t = false)
    (hp : p ∈ insertTxWithEviction mh l t c amt) :
    p ∈ l ∨ p = (t, { client := c, amount := amt, status := .normal }) := by
  rw [insertTxWithEviction_fresh mh c amt hfresh] at hp
  rcases List.mem_append.1 hp with h' | h'
  · left
    rcases mh with _ | m
    · exact h'
    · by_cases hm : l.length ≥ m
      · simp only [ge_iff_le, hm, if_true] at h'
        exact List.drop_subset _ l h'
      · simpa [hm] using h'
  · right; simpa using h'

theorem isSome_findAccount_getOrCreate (l : List UserAccount) (c c' : Nat)
    (h : (findAccount l c).isSome = true) :
    (findAccount (getOrCreateAccount l c').1 c).isSome = true := by
  by_cases hcc : c = c'
  · subst hcc; rw [findAccount_getOrCreate_self]; rfl
  · rw [findAccount_getOrCreate_ne hcc]; exact h

theorem mem_setTxStatus_client {l : List (Nat × TxRecord)} {t : Nat}
    {s : TrxStatus} {p : Nat × TxRecord} (hp : p ∈ setTxStatus l t s) :
    ∃ q ∈ l, p.2.client = q.2.client := by
  rcases mem_setTxStatus hp with h | ⟨q, hq, rfl⟩
  · exact ⟨p, h, rfl⟩
  · exact ⟨q, hq, rfl⟩

theorem step_logClientsOk {st : PaymentsEngine} (e : Trx)
    (h : logClientsOk st) : logClientsOk (step st e) := by
  cases e with
  | deposit c t amt =>
    simp only [step, process, processDeposit]
    split
    · exact h
    · next hdup' =>
      have hfresh : containsTx st.txHistory t = false := by simpa using hdup'
      split
      · intro p hp
        exact isSome_findAccount_getOrCreate _ _ _ (h p hp)
      · next na hna =>
        split
        · intro p hp
          exact isSome_findAccount_getOrCreate _ _ _ (h p hp)
        · next nt hnt =>
          intro p hp
          dsimp only at hp ⊢
          rw [findAccount_isSome_updateAccount
            (f := fun a => { a with available := na, total := nt })
            (fun a => rfl) ((getOrCreateAccount st.userAccountMap c).1) c p.2.client]
          rcases mem_insertTxWithEviction hfresh hp with hpl | rfl
          · exact isSome_findAccount_getOrCreate _ _ _ (h p hpl)
          · rw [findAccount_getOrCreate_self]; rfl
  | withdrawal c t amt =>
    simp only [step, process, processWithdrawal]
    split
    · exact h
    · next hdup' =>
      have hfresh : containsTx st.txHistory t = false := by simpa using hdup'
      split
      · intro p hp
        exact isSome_findAccount_getOrCreate _ _ _ (h p hp)
      · split
        · intro p hp
          exact isSome_findAccount_getOrCreate _ _ _ (h p hp)
        · next na hna =>
          split
          · intro p hp
            exact isSome_findAccount_getOrCreate _ _ _ (h p hp)
          · next nt hnt =>
            intro p hp
            dsimp only at hp ⊢
            rw [findAccount_isSome_updateAccount
              (f := fun a => { a with available := na, total := nt })
              (fun a => rfl) ((getOrCreateAccount st.userAccountMap c).1) c p.2.client]
            rcases mem_insertTxWithEviction hfresh hp with hpl | rfl
            · exact isSome_findAccount_getOrCreate _ _ _ (h p hpl)
            · rw [findAccount_getOrCreate_self]; rfl
  | dispute c t =>
    simp only [step, process, processDispute]
    split
    · exact h
    · split
      · exact h
      · split
        · exact h
        · split
          · exact h
          · split
            · intro p hp
              dsimp only at hp ⊢
              rcases mem_setTxStatus_client hp with ⟨q, hq, hc⟩
              rw [hc]
              exact h q hq
            · next account haccount =>
              split
              · intro p hp
                dsimp only at hp ⊢
                rcases mem_setTxStatus_client hp with ⟨q, hq, hc⟩
                rcases mem_setTxStatus_client hq with ⟨q', hq', hc'⟩
                rw [hc, hc']
                exact h q' hq'
              · next na hna =>
                split
                · intro p hp
                  dsimp only at hp ⊢
                  rcases mem_setTxStatus_client hp with ⟨q, hq, hc⟩
                  rcases mem_setTxStatus_client hq with ⟨q', hq', hc'⟩
                  rw [hc, hc']
                  exact h q' hq'
                · next nh hnh =>
                  intro p hp
                  dsimp only at hp ⊢
                  rw [findAccount_isSome_updateAccount
                    (f := fun a => { a with available := na, held := nh })
                    (fun a => rfl) st.userAccountMap c p.2.client]
                  rcases mem_setTxStatus_client hp with ⟨q, hq, hc⟩
                  rw [hc]
                  exact h q hq
  | resolve c t =>
    simp only [step, process, processResolve]
    split
    · exact h
    · split
      · exact h
      · split
        · exact h
        · split
          · intro p hp
            dsimp only at hp ⊢
            rcases mem_setTxStatus_client hp with ⟨q, hq, hc⟩
            rw [hc]
            exact h q hq
          · next account haccount =>
            split
            · intro p hp
              dsimp only at hp ⊢
              rcases mem_setTxStatus_client hp with ⟨q, hq, hc⟩
              rcases mem_setTxStatus_client hq with ⟨q', hq', hc'⟩
              rw [hc, hc']
              exact h q' hq'
            · next nh hnh =>
              split
              · intro p hp
                dsimp only at hp ⊢
                rcases mem_setTxStatus_client hp with ⟨q, hq, hc⟩
                rcases mem_setTxStatus_client hq with ⟨q', hq', hc'⟩
                rw [hc, hc']
                exact h q' hq'
              · next na hna =>
                intro p hp
                dsimp only at hp ⊢
                rw [findAccount_isSome_updateAccount
                  (f := fun a => { a with held := nh, available := na })
                  (fun a => rfl) st.userAccountMap c p.2.client]
                rcases mem_setTxStatus_client hp with ⟨q, hq, hc⟩
                rw [hc]
                exact h q hq
  | chargeback c t =>
    simp only [step, process, processChargeback]
    split
    · exact h
    · split
      · exact h
      · split
        · exact h
        · split
          · intro p hp
            dsimp only at hp ⊢
            rcases mem_setTxStatus_client hp with ⟨q, hq, hc⟩
            rw [hc]
            exact h q hq
          · next account haccount =>
            split
            · intro p hp
              dsimp only at hp ⊢
              rcases mem_setTxStatus_client hp with ⟨q, hq, hc⟩
              rcases mem_setTxStatus_client hq with ⟨q', hq', hc'⟩
              rw [hc, hc']
              exact h q' hq'
            · next nh hnh =>
              split
              · intro p hp
                dsimp only at hp ⊢
                rcases mem_setTxStatus_client hp with ⟨q, hq, hc⟩
                rcases mem_setTxStatus_client hq with ⟨q', hq', hc'⟩
                rw [hc, hc']
                exact h q' hq'
              · next nt hnt =>
                intro p hp
                dsimp only at hp ⊢
                rw [findAccount_isSome_updateAccount
                  (f := fun a => { a with held := nh, total := nt, locked := true })
                  (fun a => rfl) st.userAccountMap c p.2.client]
                rcases mem_setTxStatus_client hp with ⟨q, hq, hc⟩
                rw [hc]
                exact h q hq

theorem foldl_logClientsOk (evs : List Trx) :
    ∀ (st : PaymentsEngine), logClientsOk st →
      logClientsOk (evs.foldl step st) := by
  induction evs with
  | nil => intro st h; exact h
  | cons e rest ih => intro st h; exact ih _ (step_logClientsOk e h)

theorem dispute_no_accountMissing {st : PaymentsEngine} (hInv : logClientsOk st)
    (c t : Nat) : (process st (.dispute c t)).2 ≠ Outcome.accountMissing := by
  simp only [process, processDispute]
  split
  · intro hcon; exact Outcome.noConfusion hcon
  · next txRecord heq =>
    split
    · intro hcon; exact Outcome.noConfusion hcon
    · next hcl =>
      split
      · intro hcon; exact Outcome.noConfusion hcon
      · split
        · intro hcon; exact Outcome.noConfusion hcon
        · split
          · next haccount =>
            intro _
            have hmem := hInv _ (findTx_mem heq)
            rw [not_ne_iff.1 hcl] at hmem
            rw [haccount] at hmem
            exact Bool.noConfusion hmem
          · split
            · intro hcon; exact Outcome.noConfusion hcon
            · split
              · intro hcon; exact Outcome.noConfusion hcon
              · intro hcon; exact Outcome.noConfusion hcon

theorem resolve_no_accountMissing {st : PaymentsEngine} (hInv : logClientsOk st)
    (c t : Nat) : (process st (.resolve c t)).2 ≠ Outcome.accountMissing := by
  simp only [process, processResolve]
  split
  · intro hcon; exact Outcome.noConfusion hcon
  · next txRecord heq =>
    split
    · intro hcon; exact Outcome.noConfusion hcon
    · next hcl =>
      split
      · intro hcon; exact Outcome.noConfusion hcon
      · split
        · next haccount =>
          intro _
          have hmem := hInv _ (findTx_mem heq)
          rw [not_ne_iff.1 hcl] at hmem
          rw [haccount] at hmem
          exact Bool.noConfusion hmem
        · split
          · intro hcon; exact Outcome.noConfusion hcon
          · split
            · intro hcon; exact Outcome.noConfusion hcon
            · intro hcon; exact Outcome.noConfusion hcon

theorem chargeback_no_accountMissing {st : PaymentsEngine} (hInv : logClientsOk st)
    (c t : Nat) : (process st (.chargeback c t)).2 ≠ Outcome.accountMissing := by
  simp only [process, processChargeback]
  split
  · intro hcon; exact Outcome.noConfusion hcon
  · next txRecord heq =>
    split
    · intro hcon; exact Outcome.noConfusion hcon
    · next hcl =>
      split
      · intro hcon; exact Outcome.noConfusion hcon
      · split
        · next haccount =>
          intro _
          have hmem := hInv _ (findTx_mem heq)
          rw [not_ne_iff.1 hcl] at hmem
          rw [haccount] at hmem
          exact Bool.noConfusion hmem
        · split
          · intro hcon; exact Outcome.noConfusion hcon
          · split
            · intro hcon; exact Outcome.noConfusion hcon
            · intro hcon; exact Outcome.noConfusion hcon

/-- Claim C9: in every engine state reachable from an empty engine, every
log record names a client whose account exists, and consequently the
account lookup of dispute, resolve, and chargeback cannot take the silent
branch in which the provisional status write would persist without any
account mutation. -/
theorem log_clients_have_accounts (mh : Option Nat) (evs : List Trx) :
    logClientsOk (run mh evs) ∧
    ∀ c t, (process (run mh evs) (.dispute c t)).2 ≠ Outcome.accountMissing ∧
      (process (run mh evs) (.resolve c t)).2 ≠ Outcome.accountMissing ∧
      (process (run mh evs) (.chargeback c t)).2 ≠ Outcome.accountMissing := by
  have hInv : logClientsOk (run mh evs) :=
    foldl_logClientsOk evs _ (by intro p hp; simp [withMaxHistory] at hp)
  exact ⟨hInv, fun c t => ⟨dispute_no_accountMissing hInv c t,
    resolve_no_accountMissing hInv c t, chargeback_no_accountMissing hInv c t⟩⟩

/-- Witness for C9 on a concrete reachable state with a nonempty log. -/
theorem log_clients_have_accounts_witness :
    (findAccount (run none [.deposit 1 1 1000000]).userAccountMap 1).isSome = true ∧
    (process (run none [.deposit 1 1 1000000]) (.dispute 2 5)).2 ≠
      Outcome.accountMissing :=
  ⟨(log_clients_have_accounts none [.deposit 1 1 1000000]).1
      (1, { client := 1, amount := 1000000, status := .normal }) (by decide),
   ((log_clients_have_accounts none [.deposit 1 1 1000000]).2 2 5).1⟩

/-- Claim C10: amounts are never sign-checked.  A deposit of `-5.0000` on a
fresh engine is accepted and leaves `available = total = -5.0000`; a
withdrawal of `-5.0000` on a fresh engine passes the insufficient-funds
check (`0 < -5.0000` is false) and is accepted, increasing `available` to
`5.0000`. -/
theorem negative_amounts_accepted :
    (process (withMaxHistory none) (.deposit 1 1 (-50000))).2 = Outcome.accepted ∧
    findAccount (process (withMaxHistory none)
        (.deposit 1 1 (-50000))).1.userAccountMap 1 =
      some { client := 1, available := -50000, held := 0,
             total := -50000, locked := false } ∧
    (process (withMaxHistory none) (.withdrawal 1 2 (-50000))).2 = Outcome.accepted ∧
    findAccount (process (withMaxHistory none)
        (.withdrawal 1 2 (-50000))).1.userAccountMap 1 =
      some { client := 1, available := 50000, held := 0,
             total := 50000, locked := false } :=
  ⟨by decide, by decide, by decide, by decide⟩

end PaymentEngine
